import Mathlib

/-!
Shallow embedding of `src/main.rs` (a `key = value` config-to-JSON tool).

The Rust program stores the parsed tree in `HashMap<String, ConfigValue>`.
We model a hash map by an association list with key-replacing insertion:
lookups and insertions have exactly the map semantics of `HashMap::get`,
`HashMap::insert` and `HashMap::entry(..).or_insert_with(..)`; the list
order is bookkeeping only (a `HashMap` carries no observable order).
Panics (`.expect("型の不一致")`) are modelled by `Option`: `none` is the
aborted (panicking) computation.
-/

/-- Mirrors `enum ConfigValue { String(String), Map(HashMap<String, ConfigValue>) }`.
Constructors are named `str`/`map` for the Rust variants `String`/`Map`. -/
inductive ConfigValue where
  | str : String → ConfigValue
  | map : List (String × ConfigValue) → ConfigValue
  deriving Repr

/-- The contents of one `HashMap<String, ConfigValue>`. -/
abbrev ConfigMap := List (String × ConfigValue)

/-- Models `HashMap::get`: the value bound to `key`, if any. -/
def mapLookup : ConfigMap → String → Option ConfigValue
  | [], _ => none
  | (k, v) :: rest, key => if k = key then some v else mapLookup rest key

/-- Models `HashMap::insert`: bind `key` to `v`, replacing any previous binding. -/
def mapInsert : ConfigMap → String → ConfigValue → ConfigMap
  | [], key, v => [(key, v)]
  | (k, w) :: rest, key, v =>
      if k = key then (key, v) :: rest else (k, w) :: mapInsert rest key v

/-- Models Rust `key.split('.')` on the character list: splits at every `'.'`,
keeping empty pieces (so `"a..b"` gives `["a", "", "b"]` and `""` gives `[""]`). -/
def splitDotsAux : List Char → List (List Char)
  | [] => [[]]
  | c :: cs =>
      if c = '.' then [] :: splitDotsAux cs
      else
        match splitDotsAux cs with
        | [] => [[c]]
        | piece :: rest => (c :: piece) :: rest

/-- Models `let keys: Vec<&str> = key.split('.').collect()`. -/
def splitDots (key : String) : List String :=
  (splitDotsAux key.toList).map List.asString

/-- Core of `insert_config_value`, walking an explicit segment list.
Mirrors the Rust loop over `&keys[..keys.len() - 1]`: a missing intermediate
entry is created as an empty `Map` (`or_insert_with(|| ConfigValue::Map(..))`),
an existing `Map` is descended into, and an existing `String` makes
`as_map_mut()` return `None`, so `.expect("型の不一致")` panics — modelled as
`none`. The final segment is bound by a plain `HashMap::insert`. -/
def insertPath : ConfigMap → List String → ConfigValue → Option ConfigMap
  | _, [], _ => none
  | m, [k], v => some (mapInsert m k v)
  | m, k :: k2 :: ks, v =>
      match mapLookup m k with
      | none =>
          (insertPath [] (k2 :: ks) v).map (fun sub => mapInsert m k (.map sub))
      | some (.map sub) =>
          (insertPath sub (k2 :: ks) v).map (fun sub2 => mapInsert m k (.map sub2))
      | some (.str _) => none

/-- Models `fn insert_config_value(config, key, value)`; `none` is the panic. -/
def insert_config_value (config : ConfigMap) (key : String) (value : ConfigValue) :
    Option ConfigMap :=
  insertPath config (splitDots key) value

/-- Resolve a nonempty segment path to the entry bound at its end:
follow `Map` entries through all but the last segment, then look up the last
segment. An empty path, a missing entry, or a `String` met mid-path resolves
to `none`. -/
def resolvePath : ConfigMap → List String → Option ConfigValue
  | _, [] => none
  | m, [k] => mapLookup m k
  | m, k :: k2 :: ks =>
      match mapLookup m k with
      | some (.map sub) => resolvePath sub (k2 :: ks)
      | _ => none

/-- One parse pass over already-extracted `(key, value)` pairs: each valid
line calls `insert_config_value(config, key, ConfigValue::String(value))`. -/
def insertAll (config : ConfigMap) (pairs : List (String × String)) : Option ConfigMap :=
  pairs.foldlM (fun m kv => insert_config_value m kv.1 (.str kv.2)) config

/-! ### Line parser

`parse_config_file` trims each line, skips it when `COMMENT_REGEX` (`^\s*#`)
matches or it is empty, and otherwise matches
`CONFIG_REGEX = ^\s*([a-zA-Z0-9._-]+)\s*=\s*(.+?)\s*$`, taking
`captures[1]` as the key and `captures[2].trim()` as the value.

We model the per-line step as a pure function on one line (a string without
`'\n'`, as produced by `BufRead::lines`).  On a trimmed line the anchored
regex matches exactly when the line is: a maximal nonempty run of key
characters, optional whitespace, `'='`, optional whitespace, then at least
one more character; the value capture is the remainder with surrounding
whitespace removed (the lazy `(.+?)\s*$` strips trailing whitespace, the
greedy `\s*` after `'='` strips leading whitespace, and `captures[2].trim()`
re-trims).  The key character class and `'='` can never backtrack into each
other because the class contains neither `'='` nor whitespace. -/

/-- The `CONFIG_REGEX` key character class `[a-zA-Z0-9._-]`. -/
def isKeyChar (c : Char) : Bool :=
  (('a' ≤ c && c ≤ 'z') || ('A' ≤ c && c ≤ 'Z') || ('0' ≤ c && c ≤ '9')
    || c = '.' || c = '_' || c = '-')

/-- Whitespace, as trimmed by `str::trim` and matched by `\s` (the model
covers the ASCII whitespace the two agree on). -/
def isWsChar (c : Char) : Bool := c.isWhitespace

/-- Models `str::trim` on a character list: drop leading and trailing whitespace. -/
def trimChars (l : List Char) : List Char :=
  ((l.dropWhile isWsChar).reverse.dropWhile isWsChar).reverse

/-- Model of `CONFIG_REGEX` applied to an already-trimmed line `t`, composed with the
`captures[2].trim()` done by `parse_config_file`: the key is the maximal
leading run of key characters (nonempty), followed by optional whitespace
and `'='`; the value is the rest minus surrounding whitespace, and must be
nonempty (the `(.+?)` group needs at least one character). -/
def matchAssign (t : List Char) : Option (List Char × List Char) :=
  let key := t.takeWhile isKeyChar
  if key = [] then none
  else
    match (t.dropWhile isKeyChar).dropWhile isWsChar with
    | '=' :: rest =>
        let v := trimChars rest
        if v = [] then none else some (key, v)
    | _ => none

/-- The per-line step of `parse_config_file`: trim, skip comments and blank
lines, and otherwise extract `(key, value)` via `CONFIG_REGEX`.  `none`
means the line produces no pair (it is skipped). -/
def parseLine (line : String) : Option (String × String) :=
  let t := trimChars line.toList
  if t = [] then none
  else if t.head? = some '#' then none
  else (matchAssign t).map (fun kv => (kv.1.asString, kv.2.asString))

/-- One loop iteration of `parse_config_file`: parse the line and, when it
yields a pair, insert it into the config (`none` is the insertion panic). -/
def processLine (config : ConfigMap) (line : String) : Option ConfigMap :=
  match parseLine line with
  | none => some config
  | some kv => insert_config_value config kv.1 (.str kv.2)

/-- Models `parse_config_file` on the file's lines, starting from the empty map. -/
def parse_config_file (lines : List String) : Option ConfigMap :=
  lines.foldlM processLine []

/-! ### Serializer -/

/-- The generic structured-data values `format_as_json` produces
(`serde_json::Value`, restricted to the constructors the program emits).
An object is its member list in emission order. -/
inductive Json where
  | str : String → Json
  | obj : List (String × Json) → Json
  deriving Repr

mutual

/-- Serialization of one `ConfigValue`, per the `match` in `format_as_json`:
`ConfigValue::String(s)` becomes `json!(s)` (a JSON string, no type
inference) and `ConfigValue::Map(m)` becomes the recursively built object. -/
def serializeValue : ConfigValue → Json
  | .str s => .str s
  | .map m => .obj (serializeEntries m)

/-- The member list built by the `for (key, value) in config` loop of
`format_as_json`. -/
def serializeEntries : List (String × ConfigValue) → List (String × Json)
  | [] => []
  | (k, v) :: rest => (k, serializeValue v) :: serializeEntries rest

end

/-- Models `fn format_as_json(config) -> serde_json::Value`. -/
def format_as_json (config : ConfigMap) : Json :=
  .obj (serializeEntries config)

/-- Association lookup among a JSON object's members. -/
def jsonLookup : List (String × Json) → String → Option Json
  | [], _ => none
  | (k, j) :: rest, key => if k = key then some j else jsonLookup rest key

/-- Lookup of a nonempty path inside a `Json` value, the serialized
counterpart of `resolvePath`. -/
def jsonResolve : Json → List String → Option Json
  | _, [] => none
  | .str _, _ :: _ => none
  | .obj members, [k] => jsonLookup members k
  | .obj members, k :: k2 :: ks =>
      match jsonLookup members k with
      | some j => jsonResolve j (k2 :: ks)
      | none => none

/-! ### Argument expansion (`collect_text_files` / `get_text_files`)

The filesystem is abstracted to: which paths are regular files, which are
directories, and a directory's entries in `read_dir` order. -/

/-- Abstract filesystem state seen by `Path::is_file`, `Path::is_dir` and
`fs::read_dir`. -/
structure FileSys where
  isFile : String → Bool
  isDir : String → Bool
  entries : String → List String

/-- Models `fn collect_text_files(path) -> io::Result<Vec<PathBuf>>`: a file
yields itself; a directory yields its entries that are regular files; any
other path yields `Err(io::Error::new(ErrorKind::NotFound, "パスが見つかりません"))`. -/
def collect_text_files (fs : FileSys) (path : String) : Except String (List String) :=
  if fs.isFile path then .ok [path]
  else if fs.isDir path then .ok ((fs.entries path).filter fs.isFile)
  else .error "パスが見つかりません"

/-- Models the `args.iter().flat_map(|arg| collect_text_files(..).unwrap_or_default())`
loop of `get_text_files` (the empty-args usage exit happens before it): each
argument contributes its collected files, and an `Err` contributes
`Vec::new()` via `unwrap_or_default`. -/
def get_text_files (fs : FileSys) (args : List String) : List String :=
  match args with
  | [] => []
  | arg :: rest =>
      (match collect_text_files fs arg with
       | .ok files => files
       | .error _ => []) ++ get_text_files fs rest

/-- The error messages the `flat_map` loop of `get_text_files` writes to the
error stream: its body is `collect_text_files(Path::new(arg)).unwrap_or_default()`,
which contains no `eprintln!` — the `Err` value (and its message) is
discarded by `unwrap_or_default`, so the loop reports nothing for any
argument. -/
def get_text_files_reported (_fs : FileSys) (_args : List String) : List String := []

/-- Modelled from the spec (for comparison with `get_text_files_reported`):
"a nonexistent path — reported as an error for that argument", i.e. one
report per argument that is neither an existing file nor a directory. -/
def get_text_files_spec_reported (fs : FileSys) (args : List String) : List String :=
  args.filter (fun a => !(fs.isFile a || fs.isDir a))

/-- A filesystem state with no files or directories at all. -/
def fsEmpty : FileSys := ⟨fun _ => false, fun _ => false, fun _ => []⟩

/-- A filesystem state with exactly two regular files and no directories. -/
def fsTwoFiles : FileSys :=
  ⟨fun p => p == "a.txt" || p == "b.txt", fun _ => false, fun _ => []⟩

/-! ## Helper lemmas -/

theorem isKeyChar_not_ws {c : Char} (h : isKeyChar c = true) : isWsChar c = false := by
  cases hw : isWsChar c
  · rfl
  · exfalso
    simp only [isWsChar, Char.isWhitespace, Bool.or_eq_true, decide_eq_true_eq] at hw
    rcases hw with ((h1 | h1) | h1) | h1 <;> subst h1 <;> exact absurd h (by decide)

theorem isWsChar_not_key {c : Char} (h : isWsChar c = true) : isKeyChar c = false := by
  cases hk : isKeyChar c
  · rfl
  · exact absurd (isKeyChar_not_ws hk) (by simp [h])

theorem isKeyChar_ne_eq {c : Char} (h : isKeyChar c = true) : c ≠ '=' := by
  intro heq; subst heq; exact absurd h (by decide)

theorem isKeyChar_ne_hash {c : Char} (h : isKeyChar c = true) : c ≠ '#' := by
  intro heq; subst heq; exact absurd h (by decide)


@[simp]
theorem mapLookup_mapInsert (m : ConfigMap) (k key : String) (v : ConfigValue) :
    mapLookup (mapInsert m k v) key = if k = key then some v else mapLookup m key := by
  induction m with
  | nil => simp [mapInsert, mapLookup]
  | cons hd tl ih =>
      obtain ⟨k0, v0⟩ := hd
      by_cases h0 : k0 = k
      · subst h0
        by_cases h1 : k0 = key <;> simp [mapInsert, mapLookup, h1]
      · by_cases h1 : k0 = key
        · subst h1
          have h2 : k ≠ k0 := fun h => h0 h.symm
          simp [mapInsert, mapLookup, h0, h2]
        · simp [mapInsert, mapLookup, h0, h1, ih]

theorem insertPath_empty_isSome (ks : List String) (v : ConfigValue) (h : ks ≠ []) :
    ∃ t, insertPath [] ks v = some t := by
  induction ks with
  | nil => exact absurd rfl h
  | cons k rest ih =>
      cases rest with
      | nil => exact ⟨mapInsert [] k v, rfl⟩
      | cons k2 ks2 =>
          obtain ⟨t, ht⟩ := ih (by simp)
          exact ⟨mapInsert [] k (.map t), by simp [insertPath, mapLookup, ht]⟩

theorem splitDotsAux_ne_nil (l : List Char) : splitDotsAux l ≠ [] := by
  cases l with
  | nil => simp [splitDotsAux]
  | cons c cs =>
      by_cases h : c = '.'
      · simp [splitDotsAux, h]
      · cases hs : splitDotsAux cs <;> simp [splitDotsAux, h, hs]

theorem splitDots_ne_nil (key : String) : splitDots key ≠ [] := by
  simp [splitDots, splitDotsAux_ne_nil]

theorem take_cons_ne_nil {α : Type} (a : α) (l : List α) {n : Nat} (hn : 0 < n) :
    (a :: l).take n ≠ [] := by
  obtain ⟨m, rfl⟩ : ∃ m, n = m + 1 := ⟨n - 1, by omega⟩
  simp [List.take_succ_cons]

theorem resolvePath_single (m : ConfigMap) (k : String) :
    resolvePath m [k] = mapLookup m k := rfl

theorem resolvePath_cons_of_map {m : ConfigMap} {k : String} {sub : ConfigMap}
    (hmk : mapLookup m k = some (.map sub)) {p : List String} (hp : p ≠ []) :
    resolvePath m (k :: p) = resolvePath sub p := by
  cases p with
  | nil => exact absurd rfl hp
  | cons a l => simp [resolvePath, hmk]

theorem resolvePath_cons_of_none {m : ConfigMap} {k : String}
    (hmk : mapLookup m k = none) {p : List String} (hp : p ≠ []) :
    resolvePath m (k :: p) = none := by
  cases p with
  | nil => exact absurd rfl hp
  | cons a l => simp [resolvePath, hmk]

theorem resolvePath_cons_of_str {m : ConfigMap} {k : String} {s : String}
    (hmk : mapLookup m k = some (.str s)) {p : List String} (hp : p ≠ []) :
    resolvePath m (k :: p) = none := by
  cases p with
  | nil => exact absurd rfl hp
  | cons a l => simp [resolvePath, hmk]

/-- The conflict characterization behind C1: walking the non-final segments
panics exactly when some nonempty proper prefix of the segment path already
resolves to a `String` leaf. -/
theorem insertPath_eq_none_iff (ks : List String) (cfg : ConfigMap) (v : ConfigValue)
    (hks : ks ≠ []) :
    insertPath cfg ks v = none ↔
      ∃ n s, 0 < n ∧ n < ks.length ∧ resolvePath cfg (ks.take n) = some (.str s) := by
  induction ks generalizing cfg with
  | nil => exact absurd rfl hks
  | cons k rest ih =>
      cases rest with
      | nil =>
          simp only [insertPath, List.length_singleton]
          constructor
          · intro h; exact absurd h (by simp)
          · rintro ⟨n, s, hn0, hn1, _⟩; omega
      | cons k2 ks2 =>
          have hshift : (∃ n s, 0 < n ∧ n < (k :: k2 :: ks2).length ∧
              resolvePath cfg ((k :: k2 :: ks2).take n) = some (.str s)) ↔
              (mapLookup cfg k).elim False (fun cv =>
                match cv with
                | .str _ => True
                | .map sub => ∃ n s, 0 < n ∧ n < (k2 :: ks2).length ∧
                    resolvePath sub ((k2 :: ks2).take n) = some (.str s)) := by
            constructor
            · rintro ⟨n, s, hn0, hn1, hres⟩
              obtain ⟨n', rfl⟩ : ∃ n', n = n' + 1 := ⟨n - 1, by omega⟩
              rw [List.take_succ_cons] at hres
              cases hmk : mapLookup cfg k with
              | none =>
                  rcases Nat.eq_zero_or_pos n' with h0 | h0
                  · subst h0; rw [List.take_zero, resolvePath_single, hmk] at hres
                    cases hres
                  · rw [resolvePath_cons_of_none hmk (take_cons_ne_nil _ _ h0)] at hres
                    cases hres
              | some cv =>
                  cases cv with
                  | str s0 => simp
                  | map sub =>
                      simp only [Option.elim]
                      rcases Nat.eq_zero_or_pos n' with h0 | h0
                      · subst h0; rw [List.take_zero, resolvePath_single, hmk] at hres
                        cases hres
                      · rw [resolvePath_cons_of_map hmk (take_cons_ne_nil _ _ h0)] at hres
                        exact ⟨n', s, h0, by simp at hn1 ⊢; omega, hres⟩
            · intro h
              cases hmk : mapLookup cfg k with
              | none => rw [hmk] at h; cases h
              | some cv =>
                  rw [hmk] at h
                  cases cv with
                  | str s0 =>
                      refine ⟨1, s0, one_pos, by simp, ?_⟩
                      rw [List.take_succ_cons, List.take_zero, resolvePath_single, hmk]
                  | map sub =>
                      obtain ⟨n, s, hn0, hn1, hres⟩ := h
                      refine ⟨n + 1, s, by omega, by simp at hn1 ⊢; omega, ?_⟩
                      rw [List.take_succ_cons,
                        resolvePath_cons_of_map hmk (take_cons_ne_nil _ _ hn0)]
                      exact hres
          rw [hshift]
          cases hmk : mapLookup cfg k with
          | none =>
              obtain ⟨t, ht⟩ := insertPath_empty_isSome (k2 :: ks2) v (by simp)
              simp [insertPath, hmk, ht]
          | some cv =>
              cases cv with
              | str s0 => simp [insertPath, hmk]
              | map sub =>
                  cases hins : insertPath sub (k2 :: ks2) v with
                  | none =>
                      simp only [insertPath, hmk, hins, Option.map_none, Option.elim]
                      simpa using (ih sub (by simp)).mp hins
                  | some t =>
                      simp only [insertPath, hmk, hins, Option.map_some, Option.elim]
                      constructor
                      · intro h; cases h
                      · intro h
                        have := (ih sub (by simp)).mpr h
                        rw [hins] at this; cases this

theorem resolvePath_mapInsert_other {m : ConfigMap} {k k' : String} (hk : ¬k = k')
    (w : ConfigValue) (p : List String) :
    resolvePath (mapInsert m k w) (k' :: p) = resolvePath m (k' :: p) := by
  have heq : mapLookup (mapInsert m k w) k' = mapLookup m k' := by simp [hk]
  cases p with
  | nil => rw [resolvePath_single, resolvePath_single, heq]
  | cons a l =>
      cases hmk' : mapLookup m k' with
      | none =>
          rw [resolvePath_cons_of_none (heq.trans hmk') (by simp),
            resolvePath_cons_of_none hmk' (by simp)]
      | some cv =>
          cases cv with
          | str s0 =>
              rw [resolvePath_cons_of_str (heq.trans hmk') (by simp),
                resolvePath_cons_of_str hmk' (by simp)]
          | map sub =>
              rw [resolvePath_cons_of_map (heq.trans hmk') (by simp),
                resolvePath_cons_of_map hmk' (by simp)]


theorem insertPath_cons₂_none {cfg : ConfigMap} {k : String} (k2 : String)
    (ks : List String) (v : ConfigValue) (hmk : mapLookup cfg k = none) :
    insertPath cfg (k :: k2 :: ks) v
      = (insertPath [] (k2 :: ks) v).map (fun sub => mapInsert cfg k (.map sub)) := by
  simp [insertPath, hmk]

theorem insertPath_cons₂_map {cfg : ConfigMap} {k : String} {sub : ConfigMap} (k2 : String)
    (ks : List String) (v : ConfigValue) (hmk : mapLookup cfg k = some (.map sub)) :
    insertPath cfg (k :: k2 :: ks) v
      = (insertPath sub (k2 :: ks) v).map (fun sub2 => mapInsert cfg k (.map sub2)) := by
  simp [insertPath, hmk]

theorem insertPath_cons₂_str {cfg : ConfigMap} {k s : String} (k2 : String)
    (ks : List String) (v : ConfigValue) (hmk : mapLookup cfg k = some (.str s)) :
    insertPath cfg (k :: k2 :: ks) v = none := by
  simp [insertPath, hmk]

/-- A successful insertion binds the value at the full segment path. -/
theorem insertPath_resolves (ks : List String) (cfg t' : ConfigMap) (v : ConfigValue)
    (h : insertPath cfg ks v = some t') : resolvePath t' ks = some v := by
  induction ks generalizing cfg t' with
  | nil => cases h
  | cons k rest ih =>
      cases rest with
      | nil =>
          simp only [insertPath, Option.some.injEq] at h
          subst h
          rw [resolvePath_single]
          simp
      | cons k2 ks2 =>
          cases hmk : mapLookup cfg k with
          | none =>
              rw [insertPath_cons₂_none k2 ks2 v hmk] at h
              obtain ⟨sub2, hins, rfl⟩ := Option.map_eq_some'.mp h
              have hlk : mapLookup (mapInsert cfg k (.map sub2)) k = some (.map sub2) := by
                simp
              rw [resolvePath_cons_of_map hlk (by simp)]
              exact ih [] sub2 hins
          | some cv =>
              cases cv with
              | str s0 => rw [insertPath_cons₂_str k2 ks2 v hmk] at h; cases h
              | map sub =>
                  rw [insertPath_cons₂_map k2 ks2 v hmk] at h
                  obtain ⟨sub2, hins, rfl⟩ := Option.map_eq_some'.mp h
                  have hlk : mapLookup (mapInsert cfg k (.map sub2)) k = some (.map sub2) := by
                    simp
                  rw [resolvePath_cons_of_map hlk (by simp)]
                  exact ih sub sub2 hins

/-- A successful insertion along `k :: rest` only rewrites the root entry
at `k`; the new map is `mapInsert cfg k w` for some value `w`. -/
theorem insertPath_head (k : String) (rest : List String) (cfg t' : ConfigMap)
    (v : ConfigValue) (h : insertPath cfg (k :: rest) v = some t') :
    ∃ w, t' = mapInsert cfg k w := by
  cases rest with
  | nil =>
      simp only [insertPath, Option.some.injEq] at h
      exact ⟨v, h.symm⟩
  | cons k2 ks2 =>
      cases hmk : mapLookup cfg k with
      | none =>
          rw [insertPath_cons₂_none k2 ks2 v hmk] at h
          obtain ⟨sub2, _, rfl⟩ := Option.map_eq_some'.mp h
          exact ⟨.map sub2, rfl⟩
      | some cv =>
          cases cv with
          | str s0 => rw [insertPath_cons₂_str k2 ks2 v hmk] at h; cases h
          | map sub =>
              rw [insertPath_cons₂_map k2 ks2 v hmk] at h
              obtain ⟨sub2, _, rfl⟩ := Option.map_eq_some'.mp h
              exact ⟨.map sub2, rfl⟩

/-- One insertion of a leaf keeps the following invariant: if some nonempty
initial segment run of `p` resolved to a leaf before the call, then some
nonempty initial segment run of `p` still resolves to a leaf afterwards. -/
theorem insertPath_leaf_stable (ks : List String) (cfg t' : ConfigMap) (v : String)
    (p q : List String) (s : String)
    (h : insertPath cfg ks (.str v) = some t')
    (hq0 : q ≠ []) (hqp : ∃ r, q ++ r = p)
    (hleaf : resolvePath cfg q = some (.str s)) :
    ∃ q' s', q' ≠ [] ∧ (∃ r', q' ++ r' = p) ∧ resolvePath t' q' = some (.str s') := by
  induction ks generalizing cfg t' p q s with
  | nil => cases h
  | cons k rest ih =>
      cases q with
      | nil => exact absurd rfl hq0
      | cons k' q' =>
          obtain ⟨r, rfl⟩ := hqp
          by_cases hkk : k = k'
          · subst hkk
            cases rest with
            | nil =>
                simp only [insertPath, Option.some.injEq] at h
                subst h
                refine ⟨[k], v, by simp, ⟨q' ++ r, by simp⟩, ?_⟩
                rw [resolvePath_single]
                simp
            | cons k2 ks2 =>
                cases hmk : mapLookup cfg k with
                | none =>
                    exfalso
                    cases q' with
                    | nil =>
                        rw [resolvePath_single, hmk] at hleaf
                        cases hleaf
                    | cons a l =>
                        rw [resolvePath_cons_of_none hmk (by simp)] at hleaf
                        cases hleaf
                | some cv =>
                    cases cv with
                    | str s0 => rw [insertPath_cons₂_str k2 ks2 (.str v) hmk] at h; cases h
                    | map sub =>
                        rw [insertPath_cons₂_map k2 ks2 (.str v) hmk] at h
                        obtain ⟨sub2, hins, rfl⟩ := Option.map_eq_some'.mp h
                        cases q' with
                        | nil =>
                            exfalso
                            rw [resolvePath_single, hmk] at hleaf
                            simp at hleaf
                        | cons a l =>
                            rw [resolvePath_cons_of_map hmk (by simp)] at hleaf
                            obtain ⟨q'', s'', hq''0, ⟨r'', hr''⟩, hres⟩ :=
                              ih sub sub2 ((a :: l) ++ r) (a :: l) s hins (by simp)
                                ⟨r, rfl⟩ hleaf
                            have hlk : mapLookup (mapInsert cfg k (.map sub2)) k
                                = some (.map sub2) := by simp
                            refine ⟨k :: q'', s'', by simp,
                              ⟨r'', by simp [hr'']⟩, ?_⟩
                            rw [resolvePath_cons_of_map hlk hq''0]
                            exact hres
          · obtain ⟨w, rfl⟩ := insertPath_head k rest cfg t' (.str v) h
            refine ⟨k' :: q', s, by simp, ⟨r, rfl⟩, ?_⟩
            rw [resolvePath_mapInsert_other hkk w q']
            exact hleaf

/-- Resolution of a longer path passes through a map at every shorter
nonempty initial run. -/
theorem resolvePath_of_append (q r : List String) (c : ConfigMap) (cv : ConfigValue)
    (hq0 : q ≠ []) (hr0 : r ≠ []) (h : resolvePath c (q ++ r) = some cv) :
    ∃ sub, resolvePath c q = some (.map sub) := by
  induction q generalizing c with
  | nil => exact absurd rfl hq0
  | cons k q2 ih =>
      cases q2 with
      | nil =>
          cases hmk : mapLookup c k with
          | none =>
              rw [List.singleton_append, resolvePath_cons_of_none hmk hr0] at h
              cases h
          | some cv2 =>
              cases cv2 with
              | str s0 =>
                  rw [List.singleton_append, resolvePath_cons_of_str hmk hr0] at h
                  cases h
              | map sub => exact ⟨sub, by rw [resolvePath_single, hmk]⟩
      | cons a l =>
          cases hmk : mapLookup c k with
          | none =>
              rw [List.cons_append, resolvePath_cons_of_none hmk (by simp)] at h
              cases h
          | some cv2 =>
              cases cv2 with
              | str s0 =>
                  rw [List.cons_append, resolvePath_cons_of_str hmk (by simp)] at h
                  cases h
              | map sub =>
                  rw [List.cons_append, resolvePath_cons_of_map hmk (by simp)] at h
                  obtain ⟨sub2, hsub2⟩ := ih sub (by simp) h
                  refine ⟨sub2, ?_⟩
                  rw [resolvePath_cons_of_map hmk (by simp), hsub2]

/-- Leaf stability across a whole sequence of leaf insertions. -/
theorem insertAll_leaf_stable (pairs : List (String × String)) (cfg t' : ConfigMap)
    (p q : List String) (s : String)
    (h : insertAll cfg pairs = some t')
    (hq0 : q ≠ []) (hqp : ∃ r, q ++ r = p)
    (hleaf : resolvePath cfg q = some (.str s)) :
    ∃ q' s', q' ≠ [] ∧ (∃ r', q' ++ r' = p) ∧ resolvePath t' q' = some (.str s') := by
  induction pairs generalizing cfg q s with
  | nil =>
      simp only [insertAll, List.foldlM_nil, Option.pure_def, Option.some.injEq] at h
      subst h
      exact ⟨q, s, hq0, hqp, hleaf⟩
  | cons kv rest ih =>
      simp only [insertAll, List.foldlM_cons] at h
      cases hstep : insert_config_value cfg kv.1 (.str kv.2) with
      | none => rw [hstep] at h; cases h
      | some c1 =>
          rw [hstep] at h
          obtain ⟨q1, s1, hq10, hq1p, hleaf1⟩ :=
            insertPath_leaf_stable (splitDots kv.1) cfg c1 kv.2 p q s hstep hq0 hqp hleaf
          exact ih c1 q1 s1 h hq10 hq1p hleaf1

/-! ## Claim theorems: the tree builder -/

/-- C1: a call `insert_config_value tree key value` aborts with the internal
failure (`as_map_mut().expect("型の不一致")`, modelled as `none`) exactly when
some nonempty proper initial run of the dotted key's segment path already
resolves in the tree to a `Leaf` (`ConfigValue.str`) entry; with no such
run, the insertion succeeds. -/
theorem insert_config_value_aborts_iff (cfg : ConfigMap) (key : String) (v : ConfigValue) :
    insert_config_value cfg key v = none ↔
      ∃ n s, 0 < n ∧ n < (splitDots key).length ∧
        resolvePath cfg ((splitDots key).take n) = some (.str s) :=
  insertPath_eq_none_iff (splitDots key) cfg v (splitDots_ne_nil key)

/-- C2 (counterexample): within one parse pass, a path bound to a `Node`
*can* later be bound to a `Leaf`: inserting `a.b = 1` binds path `a` to a
`Node`, and the later insert `a = 2` rebinds the same path `a` to a `Leaf`
(final-segment overwrite).  This refutes the "never changes variant"
direction of the claimed invariant. -/
theorem insert_variant_change_counterexample :
    insert_config_value [] "a.b" (.str "1") = some [("a", .map [("b", .str "1")])] ∧
    resolvePath [("a", .map [("b", .str "1")])] ["a"] = some (.map [("b", .str "1")]) ∧
    insert_config_value [("a", .map [("b", .str "1")])] "a" (.str "2")
      = some [("a", .str "2")] ∧
    resolvePath [("a", .str "2")] ["a"] = some (.str "2") :=
  ⟨rfl, rfl, rfl, rfl⟩

/-- C2 (amended): the half of the invariant the code does keep.  During a
parse pass (a sequence of leaf insertions), once a path is bound to a
`Leaf` it is never later bound to a `Node`: a later insertion either keeps
it a leaf, or makes it unresolvable by overwriting an ancestor — it can
never resolve to a `Node` again. -/
theorem insertAll_leaf_never_node (pairs : List (String × String)) (cfg t' : ConfigMap)
    (p : List String) (s : String) (mm : ConfigMap)
    (h : insertAll cfg pairs = some t')
    (hleaf : resolvePath cfg p = some (.str s)) :
    resolvePath t' p ≠ some (.map mm) := by
  intro hmap
  have hp0 : p ≠ [] := by
    intro h0
    subst h0
    exact Option.noConfusion hleaf
  obtain ⟨q', s', hq'0, ⟨r', hr'⟩, hleaf'⟩ :=
    insertAll_leaf_stable pairs cfg t' p p s h hp0 ⟨[], by simp⟩ hleaf
  cases hr0 : r' with
  | nil =>
      subst hr0
      rw [List.append_nil] at hr'
      subst hr'
      rw [hleaf'] at hmap
      simp at hmap
  | cons x xs =>
      subst hr0
      subst hr'
      obtain ⟨sub, hsub⟩ :=
        resolvePath_of_append q' (x :: xs) t' (.map mm) hq'0 (by simp) hmap
      rw [hleaf'] at hsub
      simp at hsub

/-- Witness for C2 (amended) at a concrete input: with `x` already a leaf,
the pass inserting `a.b = 1` leaves `x` a leaf, not a node. -/
theorem insertAll_leaf_never_node_witness :
    resolvePath [("x", ConfigValue.str "0"), ("a", ConfigValue.map [("b", ConfigValue.str "1")])]
      ["x"] ≠ some (ConfigValue.map []) :=
  insertAll_leaf_never_node [("a.b", "1")] [("x", ConfigValue.str "0")]
    [("x", ConfigValue.str "0"), ("a", ConfigValue.map [("b", ConfigValue.str "1")])]
    ["x"] "0" [] rfl rfl

/-- C3: a successful insertion binds a `Leaf` with the given raw string at
the final segment of the key's path, regardless of what was previously
bound there; in particular inserting `a = 1` then `a = 2` into an empty
tree yields `{"a": "2"}` (last value wins). -/
theorem insert_binds_leaf_at_final_segment :
    (∀ (cfg : ConfigMap) (key : String) (v : String) (t' : ConfigMap),
        insert_config_value cfg key (.str v) = some t' →
          resolvePath t' (splitDots key) = some (.str v)) ∧
    insertAll [] [("a", "1"), ("a", "2")] = some [("a", .str "2")] :=
  ⟨fun cfg key v t' h => insertPath_resolves (splitDots key) cfg t' (.str v) h, rfl⟩

/-- Witness for C3: overwriting a prior `Node` entry at the final segment
with a `Leaf`. -/
theorem insert_binds_leaf_at_final_segment_witness :
    resolvePath [("a", ConfigValue.str "2")] (splitDots "a") = some (ConfigValue.str "2") :=
  insert_binds_leaf_at_final_segment.1 [("a", ConfigValue.map [("b", ConfigValue.str "1")])]
    "a" "2" [("a", ConfigValue.str "2")] rfl

/-- C4: inserting `("a.b", "1")` then `("a.c", "2")` into an empty tree
yields `{"a": {"b": "1", "c": "2"}}`: the key is split on `'.'`, the
missing intermediate `a` is created as an empty `Node` by the first insert,
the second insert descends into the existing `Node` `a`, and each leaf is
bound at the last segment. -/
theorem insert_dotted_builds_nested :
    insertAll [] [("a.b", "1"), ("a.c", "2")]
      = some [("a", .map [("b", .str "1"), ("c", .str "2")])] ∧
    splitDots "a.b" = ["a", "b"] ∧ splitDots "a.c" = ["a", "c"] :=
  ⟨rfl, rfl, rfl⟩

/-- C10: dotted keys with consecutive, leading, or trailing dots are
accepted by the line parser (`.` is in the key character class), and
`split('.')` keeps the empty segments, so entries are created under the
empty-string key instead of the key being rejected or the empty segments
collapsed. -/
theorem dotted_key_empty_segments :
    parseLine "a..b=1" = some ("a..b", "1") ∧
    splitDots "a..b" = ["a", "", "b"] ∧
    insert_config_value [] "a..b" (.str "1")
      = some [("a", .map [("", .map [("b", .str "1")])])] ∧
    parseLine ".a=1" = some (".a", "1") ∧
    splitDots ".a" = ["", "a"] ∧
    insert_config_value [] ".a" (.str "1") = some [("", .map [("a", .str "1")])] ∧
    parseLine "a.=1" = some ("a.", "1") ∧
    splitDots "a." = ["a", ""] ∧
    insert_config_value [] "a." (.str "1") = some [("a", .map [("", .str "1")])] :=
  ⟨rfl, rfl, rfl, rfl, rfl, rfl, rfl, rfl, rfl⟩

/-! ## Claim theorems: argument expansion -/

/-- C6 (counterexample): for an argument that is neither an existing file
nor a directory, `collect_text_files` does build a NotFound error, but
`get_text_files` swallows it with `unwrap_or_default()` — nothing is
written to the error stream for that argument, while the spec-modelled
behaviour reports it.  The claim's "the program reports an error for that
argument" is therefore false at this input. -/
theorem get_text_files_reports_nothing_counterexample :
    collect_text_files fsEmpty "missing" = .error "パスが見つかりません" ∧
    get_text_files fsEmpty ["missing"] = [] ∧
    get_text_files_reported fsEmpty ["missing"] = [] ∧
    get_text_files_spec_reported fsEmpty ["missing"] = ["missing"] :=
  ⟨rfl, rfl, rfl, rfl⟩

/-- C6 (amended): an argument naming a nonexistent path contributes zero
files, and processing of the other arguments continues unchanged (the run
is not aborted) — but no error is reported for it: the `io::Error` from
`collect_text_files` is discarded by `unwrap_or_default`. -/
theorem get_text_files_missing_path (fs : FileSys) (pre post : List String) (bad : String)
    (hf : fs.isFile bad = false) (hd : fs.isDir bad = false) :
    get_text_files fs (pre ++ bad :: post)
        = get_text_files fs pre ++ get_text_files fs post ∧
    get_text_files_reported fs (pre ++ bad :: post) = [] := by
  refine ⟨?_, rfl⟩
  induction pre with
  | nil => simp [get_text_files, collect_text_files, hf, hd]
  | cons a t ih => simp [get_text_files, ih, List.append_assoc]

/-- Witness for C6 (amended): a run over an existing file, a missing path,
and another existing file. -/
theorem get_text_files_missing_path_witness :
    (get_text_files fsTwoFiles (["a.txt"] ++ "missing" :: ["b.txt"])
        = get_text_files fsTwoFiles ["a.txt"] ++ get_text_files fsTwoFiles ["b.txt"] ∧
      get_text_files_reported fsTwoFiles (["a.txt"] ++ "missing" :: ["b.txt"]) = []) :=
  get_text_files_missing_path fsTwoFiles ["a.txt"] ["b.txt"] "missing" rfl rfl

/-! ## Claim theorems: serializer -/

theorem jsonLookup_serializeEntries (m : ConfigMap) (k : String) :
    jsonLookup (serializeEntries m) k = (mapLookup m k).map serializeValue := by
  induction m with
  | nil => rfl
  | cons hd tl ih =>
      obtain ⟨k0, v0⟩ := hd
      by_cases h : k0 = k <;> simp [serializeEntries, jsonLookup, mapLookup, h, ih]

theorem jsonResolve_format (p : List String) (m : ConfigMap) (cv : ConfigValue)
    (h : resolvePath m p = some cv) :
    jsonResolve (format_as_json m) p = some (serializeValue cv) := by
  induction p generalizing m with
  | nil => cases h
  | cons k rest ih =>
      cases rest with
      | nil =>
          rw [resolvePath_single] at h
          simp [format_as_json, jsonResolve, jsonLookup_serializeEntries, h]
      | cons a l =>
          cases hmk : mapLookup m k with
          | none =>
              rw [resolvePath_cons_of_none hmk (by simp)] at h
              cases h
          | some cv2 =>
              cases cv2 with
              | str s0 =>
                  rw [resolvePath_cons_of_str hmk (by simp)] at h
                  cases h
              | map sub =>
                  rw [resolvePath_cons_of_map hmk (by simp)] at h
                  have hjk : jsonLookup (serializeEntries m) k
                      = some (.obj (serializeEntries sub)) := by
                    rw [jsonLookup_serializeEntries, hmk]
                    rfl
                  simpa [format_as_json, jsonResolve, hjk] using ih sub h

/-- C7: serialization maps every reachable `Leaf(s)` to exactly the JSON
string `s` (no type inference: a numeric-looking string stays a string) and
every reachable `Node(m)` to the JSON object built by recursively
serializing `m`'s entries. -/
theorem format_as_json_faithful :
    (∀ (m : ConfigMap) (p : List String) (s : String),
        resolvePath m p = some (.str s) →
          jsonResolve (format_as_json m) p = some (.str s)) ∧
    (∀ (m : ConfigMap) (p : List String) (sub : ConfigMap),
        resolvePath m p = some (.map sub) →
          jsonResolve (format_as_json m) p = some (.obj (serializeEntries sub))) :=
  ⟨fun m p s h => jsonResolve_format p m (.str s) h,
   fun m p sub h => jsonResolve_format p m (.map sub) h⟩

/-- Witness for C7: the numeric-looking value `"8080"` serializes as the
JSON string `"8080"`. -/
theorem format_as_json_faithful_witness :
    jsonResolve (format_as_json [("server", ConfigValue.map [("port", ConfigValue.str "8080")])])
      ["server", "port"] = some (Json.str "8080") :=
  format_as_json_faithful.1 [("server", ConfigValue.map [("port", ConfigValue.str "8080")])]
    ["server", "port"] "8080" rfl

/-! ## Claim theorems: line parser -/

theorem dropWhile_append_of_all {p : Char → Bool} {l1 l2 : List Char}
    (h : ∀ a ∈ l1, p a = true) : (l1 ++ l2).dropWhile p = l2.dropWhile p := by
  induction l1 with
  | nil => rfl
  | cons a t ih =>
      simp only [List.cons_append, List.dropWhile_cons]
      rw [h a (List.mem_cons_self a t)]
      simp only [if_pos rfl]
      exact ih (fun x hx => h x (List.mem_cons_of_mem a hx))

theorem takeWhile_append_of_all {p : Char → Bool} {l1 l2 : List Char}
    (h : ∀ a ∈ l1, p a = true) : (l1 ++ l2).takeWhile p = l1 ++ l2.takeWhile p := by
  induction l1 with
  | nil => rfl
  | cons a t ih =>
      simp only [List.cons_append, List.takeWhile_cons]
      rw [h a (List.mem_cons_self a t), if_pos rfl,
        ih (fun x hx => h x (List.mem_cons_of_mem a hx))]

theorem dropWhile_of_head_false {p : Char → Bool} {c : Char} {l : List Char}
    (h : p c = false) : (c :: l).dropWhile p = c :: l := by
  simp [List.dropWhile_cons, h]

theorem takeWhile_of_head_false {p : Char → Bool} {c : Char} {l : List Char}
    (h : p c = false) : (c :: l).takeWhile p = [] := by
  simp [List.takeWhile_cons, h]

theorem dropWhile_of_all {p : Char → Bool} {l : List Char}
    (h : ∀ a ∈ l, p a = true) : l.dropWhile p = [] :=
  List.dropWhile_eq_nil_iff.mpr (by intro x hx; simp [h x hx])

/-- Trimming whitespace, then content with non-whitespace ends, then
whitespace, returns exactly the content. -/
theorem trimChars_sandwich (ws0 ws3 mid : List Char)
    (hws0 : ∀ c ∈ ws0, isWsChar c = true) (hws3 : ∀ c ∈ ws3, isWsChar c = true)
    (hhead : ∀ c, mid.head? = some c → isWsChar c = false)
    (hlast : ∀ c, mid.getLast? = some c → isWsChar c = false) :
    trimChars (ws0 ++ mid ++ ws3) = mid := by
  cases mid with
  | nil =>
      have h1 : (ws0 ++ ([] : List Char) ++ ws3).dropWhile isWsChar = [] := by
        rw [List.append_nil, dropWhile_append_of_all hws0]
        exact dropWhile_of_all hws3
      unfold trimChars
      rw [h1]
      rfl
  | cons c mc =>
      have hc : isWsChar c = false := hhead c rfl
      have h1 : (ws0 ++ (c :: mc) ++ ws3).dropWhile isWsChar = (c :: mc) ++ ws3 := by
        rw [List.append_assoc, dropWhile_append_of_all hws0, List.cons_append,
          dropWhile_of_head_false hc]
      unfold trimChars
      rw [h1, List.reverse_append,
        dropWhile_append_of_all (fun x hx => hws3 x (List.mem_reverse.mp hx))]
      cases hrev : (c :: mc).reverse with
      | nil => exact absurd hrev (by simp)
      | cons d ds =>
          have hd : (c :: mc).getLast? = some d := by
            rw [← List.head?_reverse, hrev]
            rfl
          rw [dropWhile_of_head_false (hlast d hd), ← hrev, List.reverse_reverse]

/-- The `CONFIG_REGEX` match on the trimmed form of a well-formed
assignment: key run, optional whitespace, `'='`, optional whitespace, and a
nonempty value with non-whitespace ends. -/
theorem matchAssign_wellformed (key ws1 ws2 v : List Char)
    (hkey : key ≠ []) (hkeyc : ∀ c ∈ key, isKeyChar c = true)
    (hws1 : ∀ c ∈ ws1, isWsChar c = true) (hws2 : ∀ c ∈ ws2, isWsChar c = true)
    (hv0 : v ≠ []) (hvhead : ∀ c, v.head? = some c → isWsChar c = false)
    (hvlast : ∀ c, v.getLast? = some c → isWsChar c = false) :
    matchAssign (key ++ ws1 ++ ['='] ++ ws2 ++ v) = some (key, v) := by
  have hassoc : key ++ ws1 ++ ['='] ++ ws2 ++ v
      = key ++ (ws1 ++ '=' :: (ws2 ++ v)) := by
    simp [List.append_assoc]
  have hrest_takeWhile : (ws1 ++ '=' :: (ws2 ++ v)).takeWhile isKeyChar = [] := by
    cases ws1 with
    | nil => exact takeWhile_of_head_false (by decide)
    | cons w wt =>
        rw [List.cons_append]
        exact takeWhile_of_head_false (isWsChar_not_key (hws1 w (List.mem_cons_self w wt)))
  have hrest_dropWhile : (ws1 ++ '=' :: (ws2 ++ v)).dropWhile isKeyChar
      = ws1 ++ '=' :: (ws2 ++ v) := by
    cases ws1 with
    | nil => exact dropWhile_of_head_false (by decide)
    | cons w wt =>
        rw [List.cons_append]
        rw [dropWhile_of_head_false (isWsChar_not_key (hws1 w (List.mem_cons_self w wt)))]
  have hA : (key ++ (ws1 ++ '=' :: (ws2 ++ v))).takeWhile isKeyChar = key := by
    rw [takeWhile_append_of_all hkeyc, hrest_takeWhile, List.append_nil]
  have hB : ((key ++ (ws1 ++ '=' :: (ws2 ++ v))).dropWhile isKeyChar).dropWhile isWsChar
      = '=' :: (ws2 ++ v) := by
    rw [dropWhile_append_of_all hkeyc, hrest_dropWhile,
      dropWhile_append_of_all hws1, dropWhile_of_head_false (by decide : isWsChar '=' = false)]
  have hD : trimChars (ws2 ++ v) = v := by
    have := trimChars_sandwich ws2 [] v hws2 (by intro c hc; cases hc) hvhead hvlast
    rwa [List.append_nil] at this
  rw [hassoc]
  simp only [matchAssign, hA, hB, hD]
  simp [hkey, hv0]

/-- C5: a line of the form optional whitespace, a nonempty key over
`[A-Za-z0-9._-]`, optional whitespace, `'='`, optional whitespace, then a
value with no surrounding whitespace, then optional trailing whitespace,
parses to exactly `(key, value)`: surrounding whitespace stripped from
both, internal whitespace of the value preserved. -/
theorem parseLine_wellformed (ws0 ws1 ws2 ws3 key v : List Char)
    (hws0 : ∀ c ∈ ws0, isWsChar c = true) (hws1 : ∀ c ∈ ws1, isWsChar c = true)
    (hws2 : ∀ c ∈ ws2, isWsChar c = true) (hws3 : ∀ c ∈ ws3, isWsChar c = true)
    (hkey : key ≠ []) (hkeyc : ∀ c ∈ key, isKeyChar c = true)
    (hv0 : v ≠ []) (hvhead : ∀ c, v.head? = some c → isWsChar c = false)
    (hvlast : ∀ c, v.getLast? = some c → isWsChar c = false) :
    parseLine (ws0 ++ key ++ ws1 ++ ['='] ++ ws2 ++ v ++ ws3).asString
      = some (key.asString, v.asString) := by
  obtain ⟨kc, kt, rfl⟩ : ∃ kc kt, key = kc :: kt := by
    cases key with
    | nil => exact absurd rfl hkey
    | cons a t => exact ⟨a, t, rfl⟩
  have hkc : isKeyChar kc = true := hkeyc kc (List.mem_cons_self kc kt)
  have hvd : ∃ d, v.getLast? = some d := by
    cases hv : v.getLast? with
    | some d => exact ⟨d, rfl⟩
    | none =>
        cases v with
        | nil => exact absurd rfl hv0
        | cons a t => rw [List.getLast?_cons] at hv; cases hv
  obtain ⟨d, hd⟩ := hvd
  have hmid_head : ∀ c, ((kc :: kt) ++ ws1 ++ ['='] ++ ws2 ++ v).head? = some c →
      isWsChar c = false := by
    intro c hc
    simp only [List.cons_append, List.head?_cons, Option.some.injEq] at hc
    subst hc
    exact isKeyChar_not_ws hkc
  have hmid_last : ∀ c, ((kc :: kt) ++ ws1 ++ ['='] ++ ws2 ++ v).getLast? = some c →
      isWsChar c = false := by
    intro c hc
    rw [List.getLast?_append, hd] at hc
    simp at hc
    subst hc
    exact hvlast d hd
  have hL : trimChars (String.toList (List.asString
        (ws0 ++ (kc :: kt) ++ ws1 ++ ['='] ++ ws2 ++ v ++ ws3)))
      = (kc :: kt) ++ ws1 ++ ['='] ++ ws2 ++ v := by
    show trimChars (ws0 ++ (kc :: kt) ++ ws1 ++ ['='] ++ ws2 ++ v ++ ws3) = _
    have hline : ws0 ++ (kc :: kt) ++ ws1 ++ ['='] ++ ws2 ++ v ++ ws3
        = ws0 ++ ((kc :: kt) ++ ws1 ++ ['='] ++ ws2 ++ v) ++ ws3 := by
      simp [List.append_assoc]
    rw [hline]
    exact trimChars_sandwich ws0 ws3 _ hws0 hws3 hmid_head hmid_last
  have hmatch := matchAssign_wellformed (kc :: kt) ws1 ws2 v (by simp) hkeyc hws1 hws2
    hv0 hvhead hvlast
  simp only [List.cons_append, List.append_assoc, List.nil_append] at hmatch
  simp only [parseLine, hL]
  simp [List.cons_append, isKeyChar_ne_hash hkc, hmatch]

/-- Witness for C5: the spec's own examples. -/
theorem parseLine_wellformed_witness :
    parseLine "  k.sub = v  " = some ("k.sub", "v") ∧
    parseLine "a = hello world" = some ("a", "hello world") := by
  constructor
  · exact parseLine_wellformed [' ', ' '] [' '] [' '] [' ', ' ']
      ['k', '.', 's', 'u', 'b'] ['v'] (by decide) (by decide) (by decide) (by decide)
      (by decide) (by decide) (by decide) (by decide) (by decide)
  · exact parseLine_wellformed [] [' '] [' '] []
      ['a'] ['h', 'e', 'l', 'l', 'o', ' ', 'w', 'o', 'r', 'l', 'd'] (by decide) (by decide)
      (by decide) (by decide) (by decide) (by decide) (by decide) (by decide) (by decide)

/-- The `CONFIG_REGEX` match fails when nothing but whitespace follows the
`'='`: the `(.+?)` group needs at least one character, and the line was
trimmed first. -/
theorem matchAssign_empty_value (key ws1 : List Char)
    (hkey : key ≠ []) (hkeyc : ∀ c ∈ key, isKeyChar c = true)
    (hws1 : ∀ c ∈ ws1, isWsChar c = true) :
    matchAssign (key ++ ws1 ++ ['=']) = none := by
  have htw : (ws1 ++ ['=']).takeWhile isKeyChar = [] := by
    cases ws1 with
    | nil => exact takeWhile_of_head_false (by decide)
    | cons w wt =>
        rw [List.cons_append]
        exact takeWhile_of_head_false (isWsChar_not_key (hws1 w (List.mem_cons_self w wt)))
  have hdw : (ws1 ++ ['=']).dropWhile isKeyChar = ws1 ++ ['='] := by
    cases ws1 with
    | nil => exact dropWhile_of_head_false (by decide)
    | cons w wt =>
        rw [List.cons_append]
        rw [dropWhile_of_head_false (isWsChar_not_key (hws1 w (List.mem_cons_self w wt)))]
  have hA : (key ++ (ws1 ++ ['='])).takeWhile isKeyChar = key := by
    rw [takeWhile_append_of_all hkeyc, htw, List.append_nil]
  have hB : ((key ++ (ws1 ++ ['='])).dropWhile isKeyChar).dropWhile isWsChar = ['='] := by
    rw [dropWhile_append_of_all hkeyc, hdw, dropWhile_append_of_all hws1]
    exact dropWhile_of_head_false (by decide)
  rw [List.append_assoc]
  simp only [matchAssign, hA, hB]
  simp [hkey, trimChars]

/-- C9: a line whose value part is empty after the `'='` (such as `key =`
or `key=   `) produces no pair — the regex requires at least one character
after the `'='` once trailing whitespace is trimmed — and such a line never
inserts an entry: the config is returned unchanged. -/
theorem parseLine_empty_value (ws0 ws1 ws2 key : List Char) (cfg : ConfigMap)
    (hws0 : ∀ c ∈ ws0, isWsChar c = true) (hws1 : ∀ c ∈ ws1, isWsChar c = true)
    (hws2 : ∀ c ∈ ws2, isWsChar c = true)
    (hkey : key ≠ []) (hkeyc : ∀ c ∈ key, isKeyChar c = true) :
    parseLine (ws0 ++ key ++ ws1 ++ ['='] ++ ws2).asString = none ∧
    processLine cfg (ws0 ++ key ++ ws1 ++ ['='] ++ ws2).asString = some cfg := by
  obtain ⟨kc, kt, rfl⟩ : ∃ kc kt, key = kc :: kt := by
    cases key with
    | nil => exact absurd rfl hkey
    | cons a t => exact ⟨a, t, rfl⟩
  have hkc : isKeyChar kc = true := hkeyc kc (List.mem_cons_self kc kt)
  have hmid_head : ∀ c, ((kc :: kt) ++ ws1 ++ ['=']).head? = some c →
      isWsChar c = false := by
    intro c hc
    simp only [List.cons_append, List.head?_cons, Option.some.injEq] at hc
    subst hc
    exact isKeyChar_not_ws hkc
  have hmid_last : ∀ c, ((kc :: kt) ++ ws1 ++ ['=']).getLast? = some c →
      isWsChar c = false := by
    intro c hc
    rw [List.getLast?_append] at hc
    simp at hc
    subst hc
    decide
  have hL : trimChars (String.toList (List.asString
        (ws0 ++ (kc :: kt) ++ ws1 ++ ['='] ++ ws2)))
      = (kc :: kt) ++ ws1 ++ ['='] := by
    show trimChars (ws0 ++ (kc :: kt) ++ ws1 ++ ['='] ++ ws2) = _
    have hline : ws0 ++ (kc :: kt) ++ ws1 ++ ['='] ++ ws2
        = ws0 ++ ((kc :: kt) ++ ws1 ++ ['=']) ++ ws2 := by
      simp [List.append_assoc]
    rw [hline]
    exact trimChars_sandwich ws0 ws2 _ hws0 hws2 hmid_head hmid_last
  have hmatch := matchAssign_empty_value (kc :: kt) ws1 (by simp) hkeyc hws1
  simp only [List.cons_append, List.append_assoc, List.nil_append] at hmatch
  have hparse : parseLine (ws0 ++ (kc :: kt) ++ ws1 ++ ['='] ++ ws2).asString = none := by
    simp only [parseLine, hL]
    simp [List.cons_append, isKeyChar_ne_hash hkc, hmatch]
  refine ⟨hparse, ?_⟩
  have hp2 := hparse
  simp only [List.cons_append, List.append_assoc, List.nil_append] at hp2
  simp [processLine, hp2]

/-- Witness for C9: the lines `key =` and `key=   ` are skipped. -/
theorem parseLine_empty_value_witness :
    (parseLine (([] ++ ['k', 'e', 'y'] ++ [' '] ++ ['='] ++ []).asString) = none ∧
      processLine [] (([] ++ ['k', 'e', 'y'] ++ [' '] ++ ['='] ++ []).asString) = some []) ∧
    (parseLine (([] ++ ['k', 'e', 'y'] ++ [] ++ ['='] ++ [' ', ' ', ' ']).asString) = none ∧
      processLine [] (([] ++ ['k', 'e', 'y'] ++ [] ++ ['='] ++ [' ', ' ', ' ']).asString)
        = some []) :=
  ⟨parseLine_empty_value [] [' '] [] ['k', 'e', 'y'] [] (by decide) (by decide) (by decide)
      (by decide) (by decide),
    parseLine_empty_value [] [] [' ', ' ', ' '] ['k', 'e', 'y'] [] (by decide) (by decide)
      (by decide) (by decide) (by decide)⟩
